import Mathlib

/-!
# Term document-frequency upsert (`models/term.js`) and model loading (`classifier/index.js`)

Shallow embedding of `Term.bulkUpsert` and of `loadModels`.

`Term.bulkUpsert` assembles one SQL text and one flat list of replacement
values and hands both to `sequelize.query`.  The embedding follows that
split:

* `bulkUpsertLoop` / `buildStatement` are the JavaScript string building;
* `lex`, `parseTokens`, `planOf`, `bindValues`, `insertOne`, `sequelize_query`
  are the way the assembled text and its replacements reach a PostgreSQL
  `terms` table and what the statement read from the text does there
  (`INSERT ... ON CONFLICT("term") DO UPDATE ... RETURNING`);
* `bulkUpsert` composes the two.
-/

namespace Spider

/-! ## Statement assembly (term.js lines 53-79) -/

/-- Initial value of `termInsertString` (term.js lines 53-60).  A backslash at
the end of a source line continues the string literal without adding a
character; only the written `\n` escapes are line breaks. -/
def insertHeader : String :=
  "LOCK TABLE ONLY \"terms\" IN SHARE ROW EXCLUSIVE MODE;\nINSERT INTO \"terms\"\n    (\n        \"termId\",\n        \"term\"\n    )\nVALUES\n"

/-- Text appended after the loop (term.js lines 75-79). -/
def conflictTail : String :=
  "ON CONFLICT(\"term\")\nDO UPDATE SET \n    \"documentFrequency\" = \"terms\".\"documentFrequency\" + 1\nRETURNING \"termId\", \"term\""

/-- Initial value of `value` in every iteration (term.js line 65). -/
def valueCell : String := "   (?, ?)"

/-- The `for` loop of term.js lines 62-74.  `uuidv4 k` is what the `k`-th call
of `uuidv4()` made by this invocation returns, `length` is `terms.length`,
the `Nat` argument is the loop counter `i`, the list is `terms[i..]`, and the
pair is `(termInsertString, replacementsForTermInsertion)`. -/
def bulkUpsertLoop (uuidv4 : Nat → String) (length : Nat) :
    Nat → List String → String × List String → String × List String
  | _, [], acc => acc
  | i, term :: rest, (termInsertString, replacements) =>
    let newTermId := uuidv4 i
    let value := valueCell
    let replacements := (replacements ++ [newTermId]) ++ [term]
    let value := if (i : Int) = (length : Int) - 1 then value ++ "\n" else value ++ ",\n"
    bulkUpsertLoop uuidv4 length (i + 1) rest (termInsertString ++ value, replacements)

/-- The statement text and the replacement list that `Term.bulkUpsert` passes
to `sequelize.query` (term.js lines 53-79). -/
def buildStatement (uuidv4 : Nat → String) (terms : List String) : String × List String :=
  let acc := bulkUpsertLoop uuidv4 terms.length 0 terms (insertHeader, [])
  (acc.1 ++ conflictTail, acc.2)

/-- Specification side of the statement shape: `n` value rows, the first
`n - 1` closed by a comma and a line break, the last by a line break only. -/
def specValueRows : Nat → String
  | 0 => ""
  | 1 => "   (?, ?)\n"
  | n + 2 => "   (?, ?),\n" ++ specValueRows (n + 1)

/-- Specification side of the replacement list:
`[id_0, terms[0], id_1, terms[1], ...]`, ids numbered from `k`. -/
def specReplacements (uuidv4 : Nat → String) : Nat → List String → List String
  | _, [] => []
  | k, t :: ts => uuidv4 k :: t :: specReplacements uuidv4 (k + 1) ts

/-- Number of `?` placeholders in a statement text. -/
def placeholderCount (sql : String) : Nat := sql.data.count '?'

/-! ## The `terms` table -/

/-- One row of table `terms` (term.js lines 5-25): primary key `termId`,
`term` under a unique index (lines 27-34), the two timestamps and the
`BIGINT` counter `documentFrequency`. -/
structure Row where
  termId : String
  term : String
  createdAt : Nat
  updatedAt : Nat
  documentFrequency : Int
deriving DecidableEq

/-- Largest value of a `BIGINT` column (term.js line 23). -/
def bigintMax : Int := 9223372036854775807

/-- Reasons for which `sequelize.query` rejects.  `Term.bulkUpsert` has no
handler of its own (`return await sequelize.query(...)`, term.js line 80), so
the rejection reaches the caller as it is. -/
inductive StorageError
  | connectionRefused
  | syntaxError
  | cardinalityViolation
  | uniqueViolation
  | numericValueOutOfRange
  | programLimitExceeded
deriving DecidableEq

/-- Value of one column of a returned row. -/
inductive Value
  | text (s : String)
  | time (t : Nat)
  | bigint (n : Int)
deriving DecidableEq

/-- One element of the resolved array: the columns of one affected row that
the `RETURNING` list names, in the order of that list. -/
abbrev TermEntry := List (String × Value)

/-- What `sequelize.query` gives back: the rejection, or the resolved array. -/
abbrev Outcome := Except StorageError (List TermEntry)

deriving instance DecidableEq for Except

/-- The column `c` of row `r`, if the table has such a column. -/
def Row.column (r : Row) (c : String) : Option Value :=
  if c = "termId" then some (.text r.termId)
  else if c = "term" then some (.text r.term)
  else if c = "createdAt" then some (.time r.createdAt)
  else if c = "updatedAt" then some (.time r.updatedAt)
  else if c = "documentFrequency" then some (.bigint r.documentFrequency)
  else none

/-- The entry built from row `r` for a `RETURNING` list. -/
def entryOf (returning : List String) (r : Row) : TermEntry :=
  returning.filterMap (fun c => (r.column c).map (fun v => (c, v)))

/-! ## Identifiers and replacement values -/

/-- Lower-case hexadecimal digit. -/
def isHexDigit (c : Char) : Bool :=
  (48 ≤ c.toNat && c.toNat ≤ 57) || (97 ≤ c.toNat && c.toNat ≤ 102)

/-- Characters of a canonical UUID text from position `i` on: hyphens at
positions 8, 13, 18 and 23, hexadecimal digits elsewhere. -/
def uuidChars : Nat → List Char → Bool
  | _, [] => true
  | i, c :: cs =>
    (if i = 8 ∨ i = 13 ∨ i = 18 ∨ i = 23 then decide (c = '-') else isHexDigit c)
      && uuidChars (i + 1) cs

/-- Canonical text of a UUID, the form `uuidv4()` returns and the store prints:
36 characters, `8-4-4-4-12` lower-case hexadecimal digits. -/
def isUuid (s : String) : Bool :=
  decide (s.data.length = 36) && uuidChars 0 s.data

/-- The rewriting of a string replacement that survives the round trip to the
store.  `sequelize.query` writes a string value as a quoted literal: it
doubles every single quote, which the store reads back as one quote, and it
replaces every NUL character, which PostgreSQL cannot store, by the two
characters backslash and `0`, which the store keeps as they are. -/
def escapeChars : List Char → List Char
  | [] => []
  | c :: cs =>
    if c = Char.ofNat 0 then Char.ofNat 92 :: '0' :: escapeChars cs
    else c :: escapeChars cs

/-- The text the store receives for the string replacement `s`. -/
def escapeText (s : String) : String := ⟨escapeChars s.data⟩

/-! ## Surroundings of a call -/

/-- What a call of `Term.bulkUpsert` takes from its surroundings.

* `reachable`: whether the store can be reached;
* `now`: the value of `NOW()` for the statement;
* `uuidv4 k`: the result of the `k`-th call of `uuidv4()`, a canonical UUID
  text (`uuid_canonical`);
* `fitsIndex t`: whether a row with text `t` is accepted by the unique btree
  index on `term`, whose rows have a maximum size;
* `elsewhere`: what the store does with a query that is outside the family of
  statements described by `parseTokens` and `planOf`; nothing is assumed
  about it. -/
structure Env where
  reachable : Bool
  now : Nat
  uuidv4 : Nat → String
  uuid_canonical : ∀ k, isUuid (uuidv4 k) = true
  fitsIndex : String → Bool
  elsewhere : String → List String → List Row → Outcome × List Row

/-! ## Reading the statement text -/

/-- Lexical units of the statement text. -/
inductive Token
  | word (w : String)
  | ident (name : String)
  | placeholder
  | punct (c : Char)
deriving DecidableEq

/-- Where the scan of the text stands: between tokens, inside an unquoted
word, or inside a quoted identifier (characters read so far, last first). -/
inductive LexState
  | between
  | inWord (acc : List Char)
  | inQuote (acc : List Char)

/-- White space separates tokens and is otherwise without meaning. -/
def isSpace (c : Char) : Bool := c = ' ' || c = '\n' || c = '\t' || c = '\r'

/-- Characters that are a token by themselves. -/
def isPunct (c : Char) : Bool :=
  c = '(' || c = ')' || c = ',' || c = ';' || c = '.' || c = '=' || c = '+'

/-- The word that ends when the scan leaves state `st`. -/
def closeWord : LexState → List Token
  | .inWord acc => [.word (String.mk acc.reverse)]
  | _ => []

/-- Split a statement text into tokens: unquoted words (keywords, names,
numbers), identifiers in double quotes, the placeholder `?`, punctuation. -/
def lex : LexState → List Char → List Token
  | st, [] => closeWord st
  | .inQuote acc, c :: cs =>
    if c = '"' then .ident (String.mk acc.reverse) :: lex .between cs
    else lex (.inQuote (c :: acc)) cs
  | st, c :: cs =>
    if isSpace c then closeWord st ++ lex .between cs
    else if c = '"' then closeWord st ++ lex (.inQuote []) cs
    else if c = '?' then closeWord st ++ .placeholder :: lex .between cs
    else if isPunct c then closeWord st ++ .punct c :: lex .between cs
    else match st with
      | .inWord acc => lex (.inWord (c :: acc)) cs
      | _ => lex (.inWord [c]) cs

/-- Upper-case form of an unquoted word; key words are recognised in any
case. -/
def upperWord (w : String) : String := ⟨w.data.map Char.toUpper⟩

/-- Lower-case form of an unquoted word; an unquoted name stands for its
lower-case form. -/
def lowerWord (w : String) : String := ⟨w.data.map Char.toLower⟩

/-- The key words `ks`, in this order, at the front of the tokens. -/
def readKeywords : List String → List Token → Option (List Token)
  | [], ts => some ts
  | k :: ks, .word w :: ts => if upperWord w = k then readKeywords ks ts else none
  | _ :: _, _ => none

/-- The punctuation `c` at the front of the tokens. -/
def readPunct (c : Char) : List Token → Option (List Token)
  | .punct d :: ts => if d = c then some ts else none
  | _ => none

/-- A table or column name at the front of the tokens. -/
def readName : List Token → Option (String × List Token)
  | .ident n :: ts => some (n, ts)
  | .word w :: ts => some (lowerWord w, ts)
  | _ => none

/-- A comma-separated list of names. -/
def readNames : Nat → List Token → Option (List String × List Token)
  | 0, _ => none
  | fuel + 1, ts =>
    match readName ts with
    | none => none
    | some (n, ts1) =>
      match readPunct ',' ts1 with
      | none => some ([n], ts1)
      | some ts2 =>
        match readNames fuel ts2 with
        | none => none
        | some (ns, ts3) => some (n :: ns, ts3)

/-- A comma-separated list of placeholders; the result is their number. -/
def readPlaceholders : Nat → List Token → Option (Nat × List Token)
  | 0, _ => none
  | fuel + 1, .placeholder :: ts1 =>
    match readPunct ',' ts1 with
    | none => some (1, ts1)
    | some ts2 =>
      match readPlaceholders fuel ts2 with
      | none => none
      | some (k, ts3) => some (k + 1, ts3)
  | _ + 1, _ => none

/-- One row of the `VALUES` list: placeholders in parentheses. -/
def valueRow (ts : List Token) : Option (Nat × List Token) :=
  match readPunct '(' ts with
  | none => none
  | some ts1 =>
    match readPlaceholders ts1.length ts1 with
    | none => none
    | some (k, ts2) =>
      match readPunct ')' ts2 with
      | none => none
      | some ts3 => some (k, ts3)

/-- The rows of the `VALUES` list, separated by commas; the result holds the
number of placeholders of each row. -/
def valueRows : Nat → List Token → Option (List Nat × List Token)
  | 0, _ => none
  | fuel + 1, ts =>
    match valueRow ts with
    | none => none
    | some (k, ts1) =>
      match readPunct ',' ts1 with
      | none => some ([k], ts1)
      | some ts2 =>
        match valueRows fuel ts2 with
        | none => none
        | some (ks, ts3) => some (k :: ks, ts3)

/-- Value of a decimal digit. -/
def digitValue (c : Char) : Option Nat :=
  if 48 ≤ c.toNat ∧ c.toNat ≤ 57 then some (c.toNat - 48) else none

/-- Value of a non-empty sequence of decimal digits, `acc` being the value of
the digits already read. -/
def digitsValue : Nat → List Char → Option Nat
  | acc, [] => some acc
  | acc, c :: cs =>
    match digitValue c with
    | none => none
    | some d => digitsValue (acc * 10 + d) cs

/-- An unsigned whole number at the front of the tokens. -/
def readNumber : List Token → Option (Nat × List Token)
  | .word w :: ts =>
    if w.data = [] then none
    else
      match digitsValue 0 w.data with
      | none => none
      | some k => some (k, ts)
  | _ => none

/-- The `ON CONFLICT (target) DO UPDATE SET setColumn = sourceTable.sourceColumn
+ increment` clause. -/
structure OnConflict where
  target : String
  setColumn : String
  sourceTable : String
  sourceColumn : String
  increment : Nat
deriving DecidableEq

/-- The query as read from the text: the locked table, the table and columns
of the `INSERT`, the number of placeholders of each `VALUES` row, the conflict
clause and the `RETURNING` list. -/
structure InsertStatement where
  lockedTable : String
  table : String
  columns : List String
  rows : List Nat
  onConflict : OnConflict
  returning : List String
deriving DecidableEq

/-- Why a text gives no `InsertStatement`: it is no statement of the language
at all, or it is outside the family read here. -/
inductive ParseFailure
  | malformed
  | unmodelled
deriving DecidableEq

/-- The part of the query up to and including `VALUES`:
`LOCK TABLE ONLY name IN SHARE ROW EXCLUSIVE MODE ; INSERT INTO name ( names )
VALUES`.  The result is the locked table, the table, the columns and the
tokens that follow. -/
def parseInsertHead (ts : List Token) : Option (String × String × List String × List Token) :=
  match readKeywords ["LOCK", "TABLE", "ONLY"] ts with
  | none => none
  | some ts1 =>
    match readName ts1 with
    | none => none
    | some (lockedTable, ts2) =>
      match readKeywords ["IN", "SHARE", "ROW", "EXCLUSIVE", "MODE"] ts2 with
      | none => none
      | some ts3 =>
        match readPunct ';' ts3 with
        | none => none
        | some ts4 =>
          match readKeywords ["INSERT", "INTO"] ts4 with
          | none => none
          | some ts5 =>
            match readName ts5 with
            | none => none
            | some (table, ts6) =>
              match readPunct '(' ts6 with
              | none => none
              | some ts7 =>
                match readNames ts7.length ts7 with
                | none => none
                | some (columns, ts8) =>
                  match readPunct ')' ts8 with
                  | none => none
                  | some ts9 =>
                    match readKeywords ["VALUES"] ts9 with
                    | none => none
                    | some ts10 => some (lockedTable, table, columns, ts10)

/-- The part of the query after the `VALUES` list:
`ON CONFLICT ( name ) DO UPDATE SET name = name . name + number RETURNING
names`, with nothing after it. -/
def parseInsertTail (ts : List Token) : Option (OnConflict × List String) :=
  match readKeywords ["ON", "CONFLICT"] ts with
  | none => none
  | some ts1 =>
    match readPunct '(' ts1 with
    | none => none
    | some ts2 =>
      match readName ts2 with
      | none => none
      | some (target, ts3) =>
        match readPunct ')' ts3 with
        | none => none
        | some ts4 =>
          match readKeywords ["DO", "UPDATE", "SET"] ts4 with
          | none => none
          | some ts5 =>
            match readName ts5 with
            | none => none
            | some (setColumn, ts6) =>
              match readPunct '=' ts6 with
              | none => none
              | some ts7 =>
                match readName ts7 with
                | none => none
                | some (sourceTable, ts8) =>
                  match readPunct '.' ts8 with
                  | none => none
                  | some ts9 =>
                    match readName ts9 with
                    | none => none
                    | some (sourceColumn, ts10) =>
                      match readPunct '+' ts10 with
                      | none => none
                      | some ts11 =>
                        match readNumber ts11 with
                        | none => none
                        | some (increment, ts12) =>
                          match readKeywords ["RETURNING"] ts12 with
                          | none => none
                          | some ts13 =>
                            match readNames ts13.length ts13 with
                            | none => none
                            | some (returning, ts14) =>
                              if ts14 = [] then
                                some (⟨target, setColumn, sourceTable, sourceColumn,
                                  increment⟩, returning)
                              else none

/-- Read the query from its tokens.  After `VALUES` a row has to follow: a
text that continues with anything but an opening parenthesis is no statement
of the language (`malformed`).  Every other departure from the family read
here is left open (`unmodelled`). -/
def parseTokens (ts : List Token) : Except ParseFailure InsertStatement :=
  match parseInsertHead ts with
  | none => .error .unmodelled
  | some (lockedTable, table, columns, ts1) =>
    match readPunct '(' ts1 with
    | none => .error .malformed
    | some _ =>
      match valueRows ts1.length ts1 with
      | none => .error .unmodelled
      | some (rows, ts2) =>
        match parseInsertTail ts2 with
        | none => .error .unmodelled
        | some (onConflict, returning) =>
          .ok ⟨lockedTable, table, columns, rows, onConflict, returning⟩

/-- Read the query from its text. -/
def parseStatement (sql : String) : Except ParseFailure InsertStatement :=
  parseTokens (lex .between sql.data)

/-- What the store is to do for a statement of the family: whether the
identifier is the first or the second value of a row, the number of rows, the
amount added to `documentFrequency` on conflict, and the columns returned. -/
structure Plan where
  idFirst : Bool
  rowCount : Nat
  increment : Nat
  returning : List String
deriving DecidableEq

/-- Columns of table `terms` (term.js lines 6-25). -/
def columnNames : List String :=
  ["termId", "term", "createdAt", "updatedAt", "documentFrequency"]

/-- The statements whose effect on table `terms` is described here: lock and
insert address `terms`; the inserted columns are `termId` and `term`, in
either order, with one placeholder each; the arbiter of the conflict is the
unique index on `term`; the update adds a constant to `documentFrequency`;
the returned columns are columns of the table. -/
def planOf (st : InsertStatement) : Option Plan :=
  if st.lockedTable = "terms" ∧ st.table = "terms" ∧ st.rows.all (fun k => decide (k = 2)) = true
      ∧ st.onConflict.target = "term" ∧ st.onConflict.setColumn = "documentFrequency"
      ∧ st.onConflict.sourceTable = "terms" ∧ st.onConflict.sourceColumn = "documentFrequency"
      ∧ st.returning.all (fun c => decide (c ∈ columnNames)) = true then
    if st.columns = ["termId", "term"] then
      some ⟨true, st.rows.length, st.onConflict.increment, st.returning⟩
    else if st.columns = ["term", "termId"] then
      some ⟨false, st.rows.length, st.onConflict.increment, st.returning⟩
    else none
  else none

/-- Positional replacement as `sequelize.query` does it for an array of
`replacements`: the `k`-th `?` of the text receives the `k`-th value, written
as a string literal (`escapeText`), so row `j` of the `VALUES` list receives
replacements `2j` and `2j+1`.  The result pairs identifier and text of each
row.  Values left over are ignored; a `?` left without a value stays in the
text (`none`). -/
def bindValues (idFirst : Bool) : Nat → List String → Option (List (String × String))
  | 0, _ => some []
  | n + 1, a :: b :: rest =>
    match bindValues idFirst n rest with
    | none => none
    | some vs =>
      some ((if idFirst = true then (escapeText a, escapeText b)
             else (escapeText b, escapeText a)) :: vs)
  | _ + 1, _ => none

/-! ## The statement on the table -/

/-- Row of `terms` holding the text `t`, found through the unique index on
`term`. -/
def findByTerm (t : String) (table : List Row) : Option Row :=
  table.find? (fun r => r.term = t)

/-- The `DO UPDATE SET "documentFrequency" = "terms"."documentFrequency" + k`
action on the row that holds `t`. -/
def bumpFrequency (k : Nat) (t : String) : List Row → List Row
  | [] => []
  | r :: rs =>
    if r.term = t then { r with documentFrequency := r.documentFrequency + k } :: rs
    else r :: bumpFrequency k t rs

/-- Working state of one `INSERT` command: the table as the command has
changed it so far, the texts of the rows this command has already inserted or
updated, and the rows collected for `RETURNING`. -/
structure Work where
  table : List Row
  touched : List String
  returned : List TermEntry

/-- One row `(termId, term)` of the `VALUES` list under
`ON CONFLICT("term") DO UPDATE`.

* A row with this text exists: the proposed `termId` is dropped and the
  existing row is updated, unless this same command has already inserted or
  updated that row (PostgreSQL: "ON CONFLICT DO UPDATE command cannot affect
  row a second time") or the counter would leave the `BIGINT` range.
* No such row: the row is inserted with the column defaults
  (`documentFrequency` 0, both timestamps `NOW()`), unless the primary key
  `termId` is already taken or the text is too large for the unique index on
  `term`.

The affected row, as it is after the action, is appended to the `RETURNING`
result. -/
def insertOne (env : Env) (plan : Plan) (w : Work) (v : String × String) :
    Except StorageError Work :=
  match findByTerm v.2 w.table with
  | some r =>
    if v.2 ∈ w.touched then .error .cardinalityViolation
    else if r.documentFrequency + plan.increment > bigintMax then
      .error .numericValueOutOfRange
    else .ok { table := bumpFrequency plan.increment v.2 w.table,
               touched := v.2 :: w.touched,
               returned := w.returned ++ [entryOf plan.returning
                 { r with documentFrequency := r.documentFrequency + plan.increment }] }
  | none =>
    if w.table.any (fun r => r.termId = v.1) then .error .uniqueViolation
    else if env.fitsIndex v.2 = false then .error .programLimitExceeded
    else .ok { table := w.table ++ [⟨v.1, v.2, env.now, env.now, 0⟩],
               touched := v.2 :: w.touched,
               returned := w.returned ++ [entryOf plan.returning
                 ⟨v.1, v.2, env.now, env.now, 0⟩] }

/-- The rows of the `VALUES` list are processed in order; the first error
ends the command. -/
def insertAll (env : Env) (plan : Plan) : Work → List (String × String) → Except StorageError Work
  | w, [] => .ok w
  | w, v :: vs =>
    match insertOne env plan w v with
    | .error e => .error e
    | .ok w1 => insertAll env plan w1 vs

/-- The call `sequelize.query(termInsertString, options)` of term.js lines
80-86, as outcome and table afterwards.

The text is read (`parseStatement`); a text that is no statement is rejected
with a syntax error.  For a statement of the family of `planOf` whose
identifiers are canonical UUID texts the rows are processed by `insertAll`.
For every other query the outcome is that of `env.elsewhere`.

The two statements of the text travel as one query and form one transaction:
when anything fails the table is the one from before the call.  `LOCK TABLE`
orders this transaction against those of other callers and does not change
the rows, so with one caller at a time it has no part in the outcome. -/
def sequelize_query (env : Env) (table : List Row) (sql : String) (replacements : List String) :
    Outcome × List Row :=
  if env.reachable = false then (.error .connectionRefused, table)
  else
    match parseStatement sql with
    | .error .malformed => (.error .syntaxError, table)
    | .error .unmodelled => env.elsewhere sql replacements table
    | .ok st =>
      match planOf st with
      | none => env.elsewhere sql replacements table
      | some plan =>
        match bindValues plan.idFirst plan.rowCount replacements with
        | none => (.error .syntaxError, table)
        | some values =>
          if values.all (fun v => isUuid v.1) = true then
            match insertAll env plan ⟨table, [], []⟩ values with
            | .error e => (.error e, table)
            | .ok w => (.ok w.returned, w.table)
          else env.elsewhere sql replacements table

/-- `Term.bulkUpsert` (term.js lines 51-87). -/
def bulkUpsert (env : Env) (table : List Row) (terms : List String) : Outcome × List Row :=
  let statement := buildStatement env.uuidv4 terms
  sequelize_query env table statement.1 statement.2

/-- A sequence of calls, each with its own surroundings and batch, run one
after the other on the same table. -/
def runCalls : List Row → List (Env × List String) → List Row
  | table, [] => table
  | table, c :: cs => runCalls (bulkUpsert c.1 table c.2).2 cs

/-- The unique constraints of the table: no two rows with the same `term`
(unique index, term.js lines 27-34), no two rows with the same `termId`
(primary key, line 9). -/
def WellFormed (table : List Row) : Prop :=
  (table.map (fun r => r.term)).Nodup ∧ (table.map (fun r => r.termId)).Nodup

instance : DecidablePred WellFormed := fun table => by
  unfold WellFormed
  exact inferInstance

/-! ## Auxiliary notions for the proofs -/

/-- The plan read from the text that `Term.bulkUpsert` writes for `n` terms. -/
def upsertPlan (n : Nat) : Plan := ⟨true, n, 1, ["termId", "term"]⟩

/-- Tokens of `insertHeader`. -/
def headerTokens : List Token :=
  [.word "LOCK", .word "TABLE", .word "ONLY", .ident "terms", .word "IN", .word "SHARE",
   .word "ROW", .word "EXCLUSIVE", .word "MODE", .punct ';', .word "INSERT", .word "INTO",
   .ident "terms", .punct '(', .ident "termId", .punct ',', .ident "term", .punct ')',
   .word "VALUES"]

/-- Tokens of one value row. -/
def cellTokens : List Token :=
  [.punct '(', .placeholder, .punct ',', .placeholder, .punct ')']

/-- Tokens of `n` value rows. -/
def rowsTokens : Nat → List Token
  | 0 => []
  | 1 => cellTokens
  | n + 2 => cellTokens ++ .punct ',' :: rowsTokens (n + 1)

/-- Tokens of `conflictTail`. -/
def tailTokens : List Token :=
  [.word "ON", .word "CONFLICT", .punct '(', .ident "term", .punct ')', .word "DO",
   .word "UPDATE", .word "SET", .ident "documentFrequency", .punct '=', .ident "terms",
   .punct '.', .ident "documentFrequency", .punct '+', .word "1", .word "RETURNING",
   .ident "termId", .punct ',', .ident "term"]

/-- Rows proposed for insertion: the identifier generated in iteration `j`
paired with the text the store receives for entry `j` of the batch, ids
numbered from `k`. -/
def proposedRows (uuidv4 : Nat → String) : Nat → List String → List (String × String)
  | _, [] => []
  | k, t :: ts => (uuidv4 k, escapeText t) :: proposedRows uuidv4 (k + 1) ts

/-- The row that a proposed row `v` leaves behind: the existing row with its
counter raised by `k`, or the new row with the column defaults. -/
def affectedRow (now : Nat) (k : Nat) (table : List Row) (v : String × String) : Row :=
  match findByTerm v.2 table with
  | some r => { r with documentFrequency := r.documentFrequency + k }
  | none => ⟨v.1, v.2, now, now, 0⟩

/-- Every text the command has touched is held by a row of the working
table. -/
def Tracked (w : Work) : Prop :=
  ∀ s ∈ w.touched, findByTerm s w.table ≠ none

/-- Every call of the sequence succeeds, each run on the table the calls
before it have left. -/
def callsSucceed : List Row → List (Env × List String) → Prop
  | _, [] => True
  | table, c :: cs =>
    (bulkUpsert c.1 table c.2).1.isOk = true ∧ callsSucceed (bulkUpsert c.1 table c.2).2 cs

/-- Number of batches of the sequence that hold a term whose stored text is
`s`. -/
def batchesWith (s : String) (calls : List (Env × List String)) : Nat :=
  calls.countP (fun c => decide (s ∈ c.2.map escapeText))

/-- The identifiers that `uuidv4()` returns during the calls of the sequence,
one per entry of each batch. -/
def generatedIds : List (Env × List String) → List String
  | [] => []
  | c :: cs => (List.range c.2.length).map c.1.uuidv4 ++ generatedIds cs

/-! ## Concrete inputs for the scenarios -/

/-- Three different identifiers, as `uuidv4()` produces them. -/
def sampleUuid : Nat → String
  | 0 => "1b4e28ba-2fa1-41d2-883f-0016d3cca427"
  | 1 => "6fa459ea-ee8a-4ca4-894e-db77e160355e"
  | _ => "16fd2706-8baf-433b-82eb-8c7fada847da"

/-- Sample surroundings: store reachable, fixed clock, `sampleUuid` as the
results of `uuidv4()`, an index that takes texts of up to 1000 characters, and
a store that refuses every query outside the family read here. -/
def sampleEnv : Env where
  reachable := true
  now := 1500000000
  uuidv4 := sampleUuid
  uuid_canonical := fun k => by
    unfold sampleUuid
    split <;> decide
  fitsIndex := fun t => decide (t.data.length ≤ 1000)
  elsewhere := fun _ _ table => (.error .syntaxError, table)

/-- Identifiers of a later call. -/
def laterUuid : Nat → String
  | 0 => "c9bf9e57-1685-4c89-bafb-ff5af830be8a"
  | 1 => "7c9e6679-7425-40de-944b-e07fc1f90ae7"
  | _ => "e902893a-9d22-3c7e-a7b8-d6e313b71d9f"

/-- Surroundings of a later call: as `sampleEnv`, with a later clock and other
identifiers. -/
def laterEnv : Env where
  reachable := true
  now := 1500000060
  uuidv4 := laterUuid
  uuid_canonical := fun k => by
    unfold laterUuid
    split <;> decide
  fitsIndex := fun t => decide (t.data.length ≤ 1000)
  elsewhere := fun _ _ table => (.error .syntaxError, table)

/-- Storage of the second scenario: `"cat"` with `documentFrequency` 5. -/
def catTable : List Row :=
  [⟨"886313e1-3b8a-4372-9b90-0c9aee199e5d", "cat", 1400000000, 1400000000, 5⟩]

/-! ## Model loading (classifier/index.js lines 14-111) -/

/-- The options read by `commandLineArgs` (index.js lines 14-22); an option
that was not given is `none`. -/
structure CommandLineOptions where
  labelled_dataset : Option String
  legal_model : Option String
  class_model : Option String
  output_dir : Option String
  mode : Option String
  quantile : Option String
  limit : Option String

/-- What `loadModels` uses from Node: the three functions of module `path`,
`__dirname`, `fs.readFileSync` and `JSON.parse` (`none` when the call throws),
and the empty object.  `J` is the type of parsed values. -/
structure Host (J : Type) where
  isAbsolute : String → Bool
  join : String → String → String
  normalize : String → String
  dirname : String
  readFileSync : String → Option String
  jsonParse : String → Option J
  emptyObject : J

/-- The two module variables `legalModel` and `classModel` (index.js lines
29-30). -/
structure Models (J : Type) where
  legalModel : J
  classModel : J

/-- JavaScript truthiness of an option value: `undefined` and the empty
string are falsy. -/
def truthy : Option String → Bool
  | none => false
  | some s => decide (s ≠ "")

/-- The path computed by `loader` (index.js lines 46-61). -/
def loaderPath {J : Type} (h : Host J) (sourceString : Option String) : String :=
  if truthy sourceString = true ∧ h.isAbsolute (sourceString.getD "") = false then
    h.normalize (h.join h.dirname (sourceString.getD ""))
  else if truthy sourceString = true then
    h.normalize (sourceString.getD "")
  else
    h.join h.dirname "legalModel.json"

/-- The `try`/`catch` of `loader` (index.js lines 63-73): read and parse the
file at `rawPath`; the empty object when either step throws. -/
def readModel {J : Type} (h : Host J) (rawPath : String) : J :=
  match h.readFileSync rawPath with
  | none => h.emptyObject
  | some modelString =>
    match h.jsonParse modelString with
    | none => h.emptyObject
    | some model => model

/-- The inner function `loader` (index.js lines 45-74). -/
def loader {J : Type} (h : Host J) (sourceString : Option String) : J :=
  readModel h (loaderPath h sourceString)

/-- `loadModels` (index.js lines 39-78). -/
def loadModels {J : Type} (h : Host J) (commandLineOptions : CommandLineOptions) : Models J :=
  { legalModel := loader h commandLineOptions.legal_model,
    classModel := loader h commandLineOptions.class_model }

/-- The two files `storeModels` writes below `destinationPath` (index.js
lines 101-110): the legal model first, then the class model. -/
def storeDestinations {J : Type} (h : Host J) (destinationPath : String) : String × String :=
  (h.join destinationPath "legalModel.json", h.join destinationPath "classModel.json")

/-- A script directory that holds both model files, with different content.
Parsed values are represented by their text. -/
def sampleHost : Host String where
  isAbsolute := fun s => s.data.head? = some '/'
  join := fun a b => a ++ "/" ++ b
  normalize := fun s => s
  dirname := "/srv/classifier"
  readFileSync := fun p =>
    if p = "/srv/classifier/legalModel.json" then some "legal-model-content"
    else if p = "/srv/classifier/classModel.json" then some "class-model-content"
    else none
  jsonParse := fun s => some s
  emptyObject := "empty-object"

/-! ## Statement assembly: lemmas -/

theorem bulkUpsertLoop_spec (uuidv4 : Nat → String) (length : Nat) (rest : List String) :
    ∀ (i : Nat) (sql : String) (repl : List String), i + rest.length = length →
      bulkUpsertLoop uuidv4 length i rest (sql, repl)
        = (sql ++ specValueRows rest.length, repl ++ specReplacements uuidv4 i rest) := by
  induction rest with
  | nil => intro i sql repl _; simp [bulkUpsertLoop, specValueRows, specReplacements]
  | cons t ts ih =>
    intro i sql repl h
    simp only [List.length_cons] at h
    rw [bulkUpsertLoop, ih (i + 1) _ _ (by omega)]
    cases ts with
    | nil =>
      have : (i : Int) = (length : Int) - 1 := by simp at h; omega
      simp [this, specValueRows, specReplacements, valueCell]
    | cons u us =>
      have : ¬ ((i : Int) = (length : Int) - 1) := by simp at h; omega
      simp [this, specValueRows, specReplacements, valueCell, String.append_assoc]

theorem buildStatement_eq (uuidv4 : Nat → String) (terms : List String) :
    buildStatement uuidv4 terms
      = (insertHeader ++ specValueRows terms.length ++ conflictTail,
         specReplacements uuidv4 0 terms) := by
  simp [buildStatement, bulkUpsertLoop_spec uuidv4 terms.length terms 0 _ _ (by simp)]

/-! ## Reading the text that `Term.bulkUpsert` writes -/

set_option maxRecDepth 100000 in
theorem lex_header (rest : List Char) :
    lex .between (insertHeader.data ++ rest) = headerTokens ++ lex .between rest := by
  rfl

theorem lex_last_row (rest : List Char) :
    lex .between ("   (?, ?)\n".data ++ rest) = cellTokens ++ lex .between rest := by
  rfl

theorem lex_row (rest : List Char) :
    lex .between ("   (?, ?),\n".data ++ rest) = cellTokens ++ .punct ',' :: lex .between rest := by
  rfl

set_option maxRecDepth 100000 in
theorem lex_tail : lex .between conflictTail.data = tailTokens := by
  rfl

theorem lex_rows (n : Nat) (rest : List Char) :
    lex .between ((specValueRows n).data ++ rest) = rowsTokens n ++ lex .between rest := by
  induction n using specValueRows.induct with
  | case1 => rfl
  | case2 => exact lex_last_row rest
  | case3 m ih =>
    rw [specValueRows, String.data_append, List.append_assoc, lex_row, ih, rowsTokens]
    simp

/-- The same query written on one line, in lower case and with unquoted table
names, is read as the same statement. -/
theorem parseStatement_other_layout :
    parseStatement ("lock table only terms in share row exclusive mode; "
        ++ "insert into terms(\"termId\",\"term\") values (?,?),(?,?) on conflict (term) do update "
        ++ "set \"documentFrequency\"=terms.\"documentFrequency\"+1 returning \"termId\",term")
      = .ok ⟨"terms", "terms", ["termId", "term"], [2, 2],
          ⟨"term", "documentFrequency", "terms", "documentFrequency", 1⟩,
          ["termId", "term"]⟩ := by
  rfl

theorem lex_statement (n : Nat) :
    lex .between (insertHeader ++ specValueRows n ++ conflictTail).data
      = headerTokens ++ (rowsTokens n ++ tailTokens) := by
  rw [String.data_append, String.data_append, List.append_assoc, lex_header, lex_rows, lex_tail]

theorem parseInsertHead_header (rest : List Token) :
    parseInsertHead (headerTokens ++ rest)
      = some ("terms", "terms", ["termId", "term"], rest) := by
  rfl

theorem valueRow_cell (rest : List Token) : valueRow (cellTokens ++ rest) = some (2, rest) := by
  rfl

theorem parseInsertTail_tail :
    parseInsertTail tailTokens
      = some (⟨"term", "documentFrequency", "terms", "documentFrequency", 1⟩,
              ["termId", "term"]) := by
  rfl

theorem valueRows_rows (n : Nat) :
    ∀ fuel, n + 1 ≤ fuel →
      valueRows fuel (rowsTokens (n + 1) ++ tailTokens)
        = some (List.replicate (n + 1) 2, tailTokens) := by
  induction n with
  | zero =>
    intro fuel h
    obtain ⟨k, rfl⟩ : ∃ k, fuel = k + 1 := ⟨fuel - 1, by omega⟩
    rfl
  | succ m ih =>
    intro fuel h
    obtain ⟨k, rfl⟩ : ∃ k, fuel = k + 1 := ⟨fuel - 1, by omega⟩
    have hp : ∀ ts : List Token, readPunct ',' (.punct ',' :: ts) = some ts := fun _ => rfl
    rw [rowsTokens, List.append_assoc, valueRows, valueRow_cell]
    simp only [List.cons_append, hp, ih k (by omega)]
    rfl

theorem rowsTokens_length (n : Nat) : n ≤ (rowsTokens n).length := by
  induction n using rowsTokens.induct with
  | case1 => simp [rowsTokens]
  | case2 => simp [rowsTokens, cellTokens]
  | case3 m ih =>
    rw [rowsTokens, List.length_append, List.length_cons]
    omega

theorem parseTokens_statement (n : Nat) :
    parseTokens (headerTokens ++ (rowsTokens n ++ tailTokens))
      = if n = 0 then .error .malformed
        else .ok ⟨"terms", "terms", ["termId", "term"], List.replicate n 2,
              ⟨"term", "documentFrequency", "terms", "documentFrequency", 1⟩,
              ["termId", "term"]⟩ := by
  cases n with
  | zero => rfl
  | succ m =>
    have hp : readPunct '(' (rowsTokens (m + 1) ++ tailTokens)
        = some ((rowsTokens (m + 1) ++ tailTokens).tail) := by
      cases m <;> rfl
    rw [parseTokens, parseInsertHead_header]
    simp only [hp]
    rw [valueRows_rows m _ (by
      rw [List.length_append]
      have := rowsTokens_length (m + 1)
      omega)]
    simp only [parseInsertTail_tail]
    simp

theorem planOf_statement (n : Nat) :
    planOf ⟨"terms", "terms", ["termId", "term"], List.replicate n 2,
        ⟨"term", "documentFrequency", "terms", "documentFrequency", 1⟩, ["termId", "term"]⟩
      = some (upsertPlan n) := by
  have h : (List.replicate n 2).all (fun k => decide (k = 2)) = true := by
    simp [List.all_eq_true]
  simp [planOf, h, upsertPlan, columnNames]

/-! ## Identifiers and replacement values: lemmas -/

theorem escapeChars_of_no_nul (cs : List Char) (h : ∀ c ∈ cs, c ≠ Char.ofNat 0) :
    escapeChars cs = cs := by
  induction cs with
  | nil => rfl
  | cons c cs ih =>
    have hc : c ≠ Char.ofNat 0 := h c (List.mem_cons_self _ _)
    simp [escapeChars, hc, ih (fun d hd => h d (List.mem_cons_of_mem _ hd))]

theorem uuidChars_no_nul (cs : List Char) :
    ∀ i, uuidChars i cs = true → ∀ c ∈ cs, c ≠ Char.ofNat 0 := by
  induction cs with
  | nil => intro i _ c hc; simp at hc
  | cons d ds ih =>
    intro i h c hc
    simp only [uuidChars, Bool.and_eq_true] at h
    rcases List.mem_cons.mp hc with rfl | hmem
    · intro h0
      rw [h0] at h
      have h1 := h.1
      split_ifs at h1
      · exact absurd h1 (by decide)
      · exact absurd h1 (by decide)
    · exact ih (i + 1) h.2 c hmem

theorem escapeText_of_isUuid {s : String} (h : isUuid s = true) : escapeText s = s := by
  simp only [isUuid, Bool.and_eq_true] at h
  have := escapeChars_of_no_nul s.data (uuidChars_no_nul s.data 0 h.2)
  simp [escapeText, this]

theorem bindValues_spec (env : Env) (terms : List String) :
    ∀ k, bindValues true terms.length (specReplacements env.uuidv4 k terms)
      = some (proposedRows env.uuidv4 k terms) := by
  induction terms with
  | nil => intro k; rfl
  | cons t ts ih =>
    intro k
    simp [bindValues, specReplacements, proposedRows, ih,
      escapeText_of_isUuid (env.uuid_canonical k)]

theorem proposedRows_all_uuid (env : Env) (terms : List String) :
    ∀ k, (proposedRows env.uuidv4 k terms).all (fun v => isUuid v.1) = true := by
  induction terms with
  | nil => intro k; rfl
  | cons t ts ih =>
    intro k
    simp only [proposedRows, List.all_cons, env.uuid_canonical k, Bool.true_and]
    exact ih (k + 1)

/-- The statement reaches the store as the list of proposed rows, to be
processed under the plan read from the text; without a row it is refused. -/
theorem bulkUpsert_eq (env : Env) (table : List Row) (terms : List String) :
    bulkUpsert env table terms =
      if env.reachable = false then (.error .connectionRefused, table)
      else if terms = [] then (.error .syntaxError, table)
      else
        match insertAll env (upsertPlan terms.length) ⟨table, [], []⟩
            (proposedRows env.uuidv4 0 terms) with
        | .error e => (.error e, table)
        | .ok w => (.ok w.returned, w.table) := by
  unfold bulkUpsert sequelize_query
  simp only [buildStatement_eq, parseStatement, lex_statement, parseTokens_statement]
  by_cases hr : env.reachable = false
  · simp [hr]
  · by_cases ht : terms = []
    · simp [hr, ht]
    · have hn : terms.length ≠ 0 := by simpa using ht
      simp only [hr, ht, hn, if_false, planOf_statement]
      simp only [upsertPlan, bindValues_spec, proposedRows_all_uuid, if_true]

/-! ## Lookup and update on the table -/

theorem findByTerm_term {t : String} {table : List Row} {r : Row}
    (h : findByTerm t table = some r) : r.term = t := by
  have := List.find?_some h
  simpa using this

theorem findByTerm_mem {t : String} {table : List Row} {r : Row}
    (h : findByTerm t table = some r) : r ∈ table :=
  List.mem_of_find?_eq_some h

theorem findByTerm_eq_none {t : String} {table : List Row} :
    findByTerm t table = none ↔ t ∉ table.map (fun r => r.term) := by
  unfold findByTerm
  rw [List.find?_eq_none]
  simp

theorem findByTerm_of_mem {table : List Row} {r : Row}
    (hnd : (table.map (fun r => r.term)).Nodup) (hr : r ∈ table) :
    findByTerm r.term table = some r := by
  induction table with
  | nil => simp at hr
  | cons x xs ih =>
    simp only [List.map_cons, List.nodup_cons] at hnd
    rcases List.mem_cons.mp hr with rfl | hmem
    · simp [findByTerm]
    · have hne : x.term ≠ r.term := by
        intro heq
        exact hnd.1 (heq ▸ List.mem_map_of_mem (fun r => r.term) hmem)
      have := ih hnd.2 hmem
      simpa [findByTerm, List.find?_cons, hne] using this

theorem filter_term_eq {t : String} {table : List Row}
    (hnd : (table.map (fun r => r.term)).Nodup) :
    table.filter (fun r => r.term = t) = (findByTerm t table).toList := by
  induction table with
  | nil => rfl
  | cons x xs ih =>
    simp only [List.map_cons, List.nodup_cons] at hnd
    by_cases hx : x.term = t
    · have hnone : xs.filter (fun r => r.term = t) = [] := by
        rw [List.filter_eq_nil_iff]
        intro y hy
        simp only [decide_eq_true_eq]
        intro hyt
        exact hnd.1 (by rw [hx, ← hyt]; exact List.mem_map_of_mem (fun r => r.term) hy)
      simp [findByTerm, List.find?_cons, List.filter_cons, hx, hnone]
    · have := ih hnd.2
      simpa [findByTerm, List.find?_cons, List.filter_cons, hx] using this

theorem bumpFrequency_map_term (k : Nat) (t : String) (table : List Row) :
    (bumpFrequency k t table).map (fun r => r.term) = table.map (fun r => r.term) := by
  induction table with
  | nil => rfl
  | cons x xs ih =>
    by_cases hx : x.term = t <;> simp [bumpFrequency, hx, ih]

theorem bumpFrequency_map_termId (k : Nat) (t : String) (table : List Row) :
    (bumpFrequency k t table).map (fun r => r.termId) = table.map (fun r => r.termId) := by
  induction table with
  | nil => rfl
  | cons x xs ih =>
    by_cases hx : x.term = t <;> simp [bumpFrequency, hx, ih]

theorem findByTerm_bump_ne (k : Nat) {s t : String} (hst : s ≠ t) (table : List Row) :
    findByTerm s (bumpFrequency k t table) = findByTerm s table := by
  induction table with
  | nil => rfl
  | cons x xs ih =>
    by_cases hx : x.term = t
    · have hxs : ¬ x.term = s := by rw [hx]; exact fun h => hst h.symm
      simp [bumpFrequency, hx, findByTerm, List.find?_cons, hxs, hst.symm]
    · by_cases hs : x.term = s
      · simp only [bumpFrequency, hx, if_false]
        simp [findByTerm, List.find?_cons, hs]
      · simpa [bumpFrequency, hx, findByTerm, List.find?_cons, hs] using ih

theorem findByTerm_bump_eq (k : Nat) {t : String} {table : List Row} {r : Row}
    (h : findByTerm t table = some r) :
    findByTerm t (bumpFrequency k t table)
      = some { r with documentFrequency := r.documentFrequency + k } := by
  induction table with
  | nil => simp [findByTerm] at h
  | cons x xs ih =>
    by_cases hx : x.term = t
    · simp only [findByTerm, List.find?_cons, hx, decide_True] at h
      cases h
      simp [bumpFrequency, hx, findByTerm, List.find?_cons]
    · simp only [findByTerm, List.find?_cons, hx, decide_False] at h
      simpa [bumpFrequency, hx, findByTerm, List.find?_cons] using ih h

theorem findByTerm_append_ne {s : String} (table : List Row) (row : Row) (h : row.term ≠ s) :
    findByTerm s (table ++ [row]) = findByTerm s table := by
  induction table with
  | nil => simp [findByTerm, List.find?_cons, h]
  | cons x xs ih =>
    by_cases hx : x.term = s
    · simp [findByTerm, List.find?_cons, hx]
    · simpa [findByTerm, List.find?_cons, hx] using ih

theorem findByTerm_append_new {table : List Row} (row : Row)
    (h : findByTerm row.term table = none) :
    findByTerm row.term (table ++ [row]) = some row := by
  induction table with
  | nil => simp [findByTerm, List.find?_cons]
  | cons x xs ih =>
    by_cases hx : x.term = row.term
    · simp [findByTerm, List.find?_cons, hx] at h
    · simp only [findByTerm, List.find?_cons, hx, decide_False] at h
      simpa [findByTerm, List.find?_cons, hx] using ih h

/-! ## One command -/

theorem insertOne_ok {env : Env} {plan : Plan} {w w1 : Work} {v : String × String}
    (h : insertOne env plan w v = .ok w1) :
    w1.touched = v.2 :: w.touched ∧
    (findByTerm v.2 w.table ≠ none → v.2 ∉ w.touched) ∧
    findByTerm v.2 w1.table = some (affectedRow env.now plan.increment w.table v) ∧
    (∀ s, s ≠ v.2 → findByTerm s w1.table = findByTerm s w.table) ∧
    w1.returned = w.returned
      ++ [entryOf plan.returning (affectedRow env.now plan.increment w.table v)] ∧
    (WellFormed w.table → WellFormed w1.table) ∧
    w1.table.map (fun r => r.termId)
      = w.table.map (fun r => r.termId)
        ++ (if findByTerm v.2 w.table = none then [v.1] else []) := by
  cases hf : findByTerm v.2 w.table with
  | some r =>
    simp only [insertOne, hf] at h
    split_ifs at h with h1 h2
    cases h
    refine ⟨rfl, fun _ => h1, ?_, ?_, ?_, ?_, ?_⟩
    · simp [affectedRow, hf, findByTerm_bump_eq _ hf]
    · intro s hs
      exact findByTerm_bump_ne _ hs _
    · simp [affectedRow, hf]
    · intro hwf
      simpa [WellFormed, bumpFrequency_map_term, bumpFrequency_map_termId] using hwf
    · simp [bumpFrequency_map_termId]
  | none =>
    simp only [insertOne, hf] at h
    split_ifs at h with h1 h2
    cases h
    refine ⟨rfl, fun hc => absurd rfl hc, ?_, ?_, ?_, ?_, ?_⟩
    · simp only [affectedRow, hf]
      exact findByTerm_append_new ⟨v.1, v.2, env.now, env.now, 0⟩ hf
    · intro s hs
      exact findByTerm_append_ne _ ⟨v.1, v.2, env.now, env.now, 0⟩ (fun h => hs h.symm)
    · simp [affectedRow, hf]
    · intro hwf
      have ht : v.2 ∉ w.table.map (fun r => r.term) := findByTerm_eq_none.mp hf
      have hi : v.1 ∉ w.table.map (fun r => r.termId) := by
        simpa using h1
      refine ⟨?_, ?_⟩
      · simp only [List.map_append, List.map_cons, List.map_nil]
        exact List.Nodup.append hwf.1 (List.nodup_singleton _) (by simpa using ht)
      · simp only [List.map_append, List.map_cons, List.map_nil]
        exact List.Nodup.append hwf.2 (List.nodup_singleton _) (by simpa using hi)
    · simp

theorem insertOne_tracked {env : Env} {plan : Plan} {w w1 : Work} {v : String × String}
    (h : insertOne env plan w v = .ok w1) (hw : Tracked w) : Tracked w1 := by
  obtain ⟨ht, _, hv, hs, _, _, _⟩ := insertOne_ok h
  intro s hmem
  rw [ht] at hmem
  by_cases hsv : s = v.2
  · rw [hsv, hv]; simp
  · rw [hs s hsv]
    rcases List.mem_cons.mp hmem with h1 | h1
    · exact absurd h1 hsv
    · exact hw s h1

theorem affectedRow_congr {now k : Nat} {t1 t2 : List Row} {v : String × String}
    (h : findByTerm v.2 t1 = findByTerm v.2 t2) :
    affectedRow now k t1 v = affectedRow now k t2 v := by
  simp [affectedRow, h]

/-- What a command that ran to its end has done. -/
theorem insertAll_ok {env : Env} {plan : Plan} (vs : List (String × String)) :
    ∀ {w w1 : Work}, insertAll env plan w vs = .ok w1 → Tracked w →
      (vs.map (fun v => v.2)).Nodup ∧
      (∀ v ∈ vs, v.2 ∉ w.touched) ∧
      (∀ s, s ∉ vs.map (fun v => v.2) → findByTerm s w1.table = findByTerm s w.table) ∧
      (∀ v ∈ vs, findByTerm v.2 w1.table
        = some (affectedRow env.now plan.increment w.table v)) ∧
      w1.returned = w.returned ++ vs.map
        (fun v => entryOf plan.returning (affectedRow env.now plan.increment w.table v)) ∧
      (WellFormed w.table → WellFormed w1.table) := by
  induction vs with
  | nil =>
    intro w w1 h _
    simp only [insertAll, Except.ok.injEq] at h
    subst h
    simp
  | cons v vs ih =>
    intro w w1 h hw
    cases h0 : insertOne env plan w v with
    | error e => simp [insertAll, h0] at h
    | ok w0 =>
      simp only [insertAll, h0] at h
      obtain ⟨ht, hpre, hv, hs, hret, hwf, _⟩ := insertOne_ok h0
      obtain ⟨ind, inot, iother, iv, iret, iwf⟩ := ih h (insertOne_tracked h0 hw)
      have hvnot : v.2 ∉ vs.map (fun v => v.2) := by
        intro hmem
        obtain ⟨u, hu, hu2⟩ := List.mem_map.mp hmem
        have := inot u hu
        rw [ht] at this
        exact this (by simp [hu2])
      have hne : ∀ u ∈ vs, u.2 ≠ v.2 := by
        intro u hu heq
        exact hvnot (List.mem_map.mpr ⟨u, hu, heq⟩)
      refine ⟨?_, ?_, ?_, ?_, ?_, fun h => iwf (hwf h)⟩
      · simp only [List.map_cons, List.nodup_cons]
        exact ⟨hvnot, ind⟩
      · intro u hu
        rcases List.mem_cons.mp hu with rfl | hu
        · by_cases hc : findByTerm u.2 w.table = none
          · intro hmem
            exact hw _ hmem hc
          · exact hpre hc
        · have := inot u hu
          rw [ht] at this
          exact fun hmem => this (List.mem_cons_of_mem _ hmem)
      · intro s hsn
        simp only [List.map_cons, List.mem_cons, not_or] at hsn
        rw [iother s hsn.2, hs s hsn.1]
      · intro u hu
        rcases List.mem_cons.mp hu with rfl | hu
        · rw [iother _ hvnot, hv]
        · rw [iv u hu, affectedRow_congr (hs _ (hne u hu))]
      · rw [iret, hret, List.map_cons, List.append_assoc, List.singleton_append]
        congr 2
        apply List.map_congr_left
        intro u hu
        rw [affectedRow_congr (hs _ (hne u hu))]

/-- When a command runs to its end: the texts of the proposed rows differ from
each other and from those already touched, and each row either meets a stored
row whose counter can take the increment, or is new, fits the index and
brings an identifier that is neither stored nor proposed by another row. -/
theorem insertAll_runs {env : Env} {plan : Plan} (vs : List (String × String)) :
    ∀ (w : Work), (vs.map (fun v => v.2)).Nodup → (vs.map (fun v => v.1)).Nodup →
      (∀ v ∈ vs, v.2 ∉ w.touched) →
      (∀ v ∈ vs,
        (∃ r, findByTerm v.2 w.table = some r ∧ r.documentFrequency + plan.increment ≤ bigintMax)
        ∨ (findByTerm v.2 w.table = none ∧ env.fitsIndex v.2 = true
            ∧ v.1 ∉ w.table.map (fun r => r.termId))) →
      ∃ w1, insertAll env plan w vs = .ok w1 := by
  induction vs with
  | nil => intro w _ _ _ _; exact ⟨w, rfl⟩
  | cons v vs ih =>
    intro w hnd2 hnd1 hnt hrow
    simp only [List.map_cons, List.nodup_cons] at hnd2 hnd1
    have hstep : ∃ w0, insertOne env plan w v = .ok w0 := by
      rcases hrow v (List.mem_cons_self _ _) with ⟨r, hf, hle⟩ | ⟨hf, hfit, hid⟩
      · have h1 : v.2 ∉ w.touched := hnt v (List.mem_cons_self _ _)
        have h2 : ¬ (r.documentFrequency + plan.increment > bigintMax) := by omega
        cases hres : insertOne env plan w v with
        | ok w0 => exact ⟨w0, rfl⟩
        | error e => simp [insertOne, hf, h1, h2] at hres
      · have hany : w.table.any (fun r => decide (r.termId = v.1)) = false := by
          rw [List.any_eq_false]
          intro r hr
          simp only [decide_eq_true_eq]
          intro heq
          exact hid (heq ▸ List.mem_map_of_mem (fun r => r.termId) hr)
        cases hres : insertOne env plan w v with
        | ok w0 => exact ⟨w0, rfl⟩
        | error e => simp [insertOne, hf, hany, hfit] at hres
    obtain ⟨w0, h0⟩ := hstep
    obtain ⟨ht, _, _, hs, _, _, hids⟩ := insertOne_ok h0
    have hne : ∀ u ∈ vs, u.2 ≠ v.2 := fun u hu heq =>
      hnd2.1 (heq ▸ List.mem_map_of_mem (fun v => v.2) hu)
    have hne1 : ∀ u ∈ vs, u.1 ≠ v.1 := fun u hu heq =>
      hnd1.1 (heq ▸ List.mem_map_of_mem (fun v => v.1) hu)
    obtain ⟨w1, h1⟩ := ih w0 hnd2.2 hnd1.2
      (by
        intro u hu
        rw [ht]
        simp only [List.mem_cons, not_or]
        exact ⟨hne u hu, hnt u (List.mem_cons_of_mem _ hu)⟩)
      (by
        intro u hu
        rw [hs _ (hne u hu), hids]
        rcases hrow u (List.mem_cons_of_mem _ hu) with h | ⟨hf, hfit, hid⟩
        · exact Or.inl h
        · refine Or.inr ⟨hf, hfit, ?_⟩
          simp only [List.mem_append, not_or]
          refine ⟨hid, ?_⟩
          split_ifs
          · simpa using hne1 u hu
          · simp)
    exact ⟨w1, by simp only [insertAll, h0, h1]⟩

theorem proposedRows_map_snd (uuidv4 : Nat → String) (terms : List String) :
    ∀ k, (proposedRows uuidv4 k terms).map (fun v => v.2) = terms.map escapeText := by
  induction terms with
  | nil => intro k; rfl
  | cons t ts ih => intro k; simp [proposedRows, ih]

theorem proposedRows_map_fst (uuidv4 : Nat → String) (terms : List String) :
    ∀ k, (proposedRows uuidv4 k terms).map (fun v => v.1)
      = (List.range' k terms.length).map uuidv4 := by
  induction terms with
  | nil => intro k; rfl
  | cons t ts ih => intro k; simp [proposedRows, ih, List.range'_succ]

theorem proposedRows_length (uuidv4 : Nat → String) (terms : List String) (k : Nat) :
    (proposedRows uuidv4 k terms).length = terms.length := by
  have := congrArg List.length (proposedRows_map_snd uuidv4 terms k)
  simpa using this

theorem proposedRows_getElem? (uuidv4 : Nat → String) (terms : List String) :
    ∀ k i, (proposedRows uuidv4 k terms)[i]?
      = (terms[i]?).map (fun t => (uuidv4 (k + i), escapeText t)) := by
  induction terms with
  | nil => intro k i; simp [proposedRows]
  | cons t ts ih =>
    intro k i
    cases i with
    | zero => simp [proposedRows]
    | succ j =>
      simp only [proposedRows, List.getElem?_cons_succ, ih]
      congr 2
      funext t
      congr 2
      omega

theorem proposedRows_mem_index (uuidv4 : Nat → String) (terms : List String) (i : Nat)
    (h : i < terms.length) :
    (uuidv4 i, escapeText terms[i]) ∈ proposedRows uuidv4 0 terms := by
  have := proposedRows_getElem? uuidv4 terms 0 i
  rw [List.getElem?_eq_getElem h] at this
  simp only [Option.map_some', Nat.zero_add] at this
  exact List.getElem?_mem this

/-- A call either is rejected and leaves the table as it was, or ran the
whole command. -/
theorem bulkUpsert_cases (env : Env) (table : List Row) (terms : List String) :
    (∃ e, bulkUpsert env table terms = (.error e, table)) ∨
    (∃ w, env.reachable = true ∧ terms ≠ [] ∧
      insertAll env (upsertPlan terms.length) ⟨table, [], []⟩
        (proposedRows env.uuidv4 0 terms) = .ok w ∧
      bulkUpsert env table terms = (.ok w.returned, w.table)) := by
  rw [bulkUpsert_eq]
  by_cases hr : env.reachable = false
  · left; exact ⟨.connectionRefused, by simp [hr]⟩
  · by_cases ht : terms = []
    · left; exact ⟨.syntaxError, by simp [hr, ht]⟩
    · cases hi : insertAll env (upsertPlan terms.length) ⟨table, [], []⟩
          (proposedRows env.uuidv4 0 terms) with
      | error e => left; exact ⟨e, by simp [hr, ht]⟩
      | ok w =>
        right
        exact ⟨w, by simpa using hr, ht, rfl, by simp [hr, ht]⟩

theorem tracked_start (table : List Row) : Tracked ⟨table, [], []⟩ := by
  intro s hs
  simp at hs

theorem bulkUpsert_wellFormed (env : Env) (table : List Row) (terms : List String)
    (hwf : WellFormed table) : WellFormed (bulkUpsert env table terms).2 := by
  rcases bulkUpsert_cases env table terms with ⟨e, he⟩ | ⟨w, _, _, hw, he⟩
  · rw [he]; exact hwf
  · rw [he]
    exact (insertAll_ok _ hw (tracked_start table)).2.2.2.2.2 hwf

theorem runCalls_wellFormed (calls : List (Env × List String)) :
    ∀ table, WellFormed table → WellFormed (runCalls table calls) := by
  induction calls with
  | nil => intro table h; exact h
  | cons c cs ih =>
    intro table h
    exact ih _ (bulkUpsert_wellFormed c.1 table c.2 h)

/-! ## Resubmitting terms that are already stored -/

theorem insertAll_ids {env : Env} {plan : Plan} (vs : List (String × String)) :
    ∀ {w w1 : Work}, insertAll env plan w vs = .ok w1 →
      ∀ id ∈ w1.table.map (fun r => r.termId),
        id ∈ w.table.map (fun r => r.termId) ∨ id ∈ vs.map (fun v => v.1) := by
  induction vs with
  | nil =>
    intro w w1 h id hid
    simp only [insertAll, Except.ok.injEq] at h
    subst h
    exact Or.inl hid
  | cons v vs ih =>
    intro w w1 h id hid
    cases h0 : insertOne env plan w v with
    | error e => simp [insertAll, h0] at h
    | ok w0 =>
      simp only [insertAll, h0] at h
      obtain ⟨_, _, _, _, _, _, hids⟩ := insertOne_ok h0
      rcases ih h id hid with h1 | h1
      · rw [hids, List.mem_append] at h1
        rcases h1 with h2 | h2
        · exact Or.inl h2
        · right
          split_ifs at h2
          · simp only [List.mem_singleton] at h2
            simp [h2]
          · simp at h2
      · exact Or.inr (List.mem_cons_of_mem _ h1)

/-- One call that meets the conditions of success: it succeeds, raises by one
the counter of every stored text that the batch holds, leaves the other stored
rows as they are, inserts new rows with counter 0, and uses no identifiers but
the stored and the generated ones. -/
theorem bulkUpsert_runs (env : Env) (table : List Row) (terms : List String)
    (hreach : env.reachable = true) (hne : terms ≠ [])
    (hnd : (terms.map escapeText).Nodup)
    (hfit : ∀ t ∈ terms, findByTerm (escapeText t) table ≠ none
      ∨ env.fitsIndex (escapeText t) = true)
    (hids : ((List.range terms.length).map env.uuidv4).Nodup)
    (hfresh : ∀ id ∈ (List.range terms.length).map env.uuidv4,
      id ∉ table.map (fun r => r.termId))
    (hmax : ∀ s r, findByTerm s table = some r → r.documentFrequency + 1 ≤ bigintMax) :
    (bulkUpsert env table terms).1.isOk = true ∧
    (∀ s r, findByTerm s table = some r →
      findByTerm s (bulkUpsert env table terms).2
        = some { r with documentFrequency := r.documentFrequency
            + (if s ∈ terms.map escapeText then 1 else 0) }) ∧
    (∀ s r1, findByTerm s table = none →
      findByTerm s (bulkUpsert env table terms).2 = some r1 → r1.documentFrequency = 0) ∧
    (∀ id ∈ (bulkUpsert env table terms).2.map (fun r => r.termId),
      id ∈ table.map (fun r => r.termId) ∨ id ∈ (List.range terms.length).map env.uuidv4) := by
  have hsnd := proposedRows_map_snd env.uuidv4 terms 0
  have hfst : (proposedRows env.uuidv4 0 terms).map (fun v => v.1)
      = (List.range terms.length).map env.uuidv4 := by
    rw [proposedRows_map_fst, ← List.range_eq_range']
  have hrun : ∃ w, insertAll env (upsertPlan terms.length) ⟨table, [], []⟩
      (proposedRows env.uuidv4 0 terms) = .ok w := by
    apply insertAll_runs
    · rw [hsnd]; exact hnd
    · rw [hfst]; exact hids
    · intro v _; simp
    · intro v hv
      have hv2 : v.2 ∈ terms.map escapeText := by
        rw [← hsnd]
        exact List.mem_map_of_mem (fun v => v.2) hv
      have hv1 : v.1 ∈ (List.range terms.length).map env.uuidv4 := by
        rw [← hfst]
        exact List.mem_map_of_mem (fun v => v.1) hv
      obtain ⟨t, ht, hte⟩ := List.mem_map.mp hv2
      cases hf : findByTerm v.2 table with
      | some r => exact Or.inl ⟨r, rfl, by simpa [upsertPlan] using hmax _ r hf⟩
      | none =>
        right
        refine ⟨rfl, ?_, hfresh _ hv1⟩
        rcases hfit t ht with h1 | h1
        · rw [hte] at h1; exact absurd hf h1
        · rw [← hte]; exact h1
  obtain ⟨w, hw⟩ := hrun
  have hcall : bulkUpsert env table terms = (.ok w.returned, w.table) := by
    rw [bulkUpsert_eq, hw]
    simp [hreach, hne]
  obtain ⟨_, _, hother, hv, _, _⟩ := insertAll_ok _ hw (tracked_start table)
  have hidsub := insertAll_ids _ hw
  rw [hcall]
  simp only at hother hv hidsub ⊢
  refine ⟨rfl, ?_, ?_, ?_⟩
  · intro s r hr
    by_cases hs : s ∈ terms.map escapeText
    · have hmem : s ∈ (proposedRows env.uuidv4 0 terms).map (fun v => v.2) := by
        rw [hsnd]; exact hs
      obtain ⟨v, hvm, hv2⟩ := List.mem_map.mp hmem
      have := hv v hvm
      rw [hv2] at this
      rw [this]
      simp [affectedRow, hv2, hr, hs, upsertPlan]
    · have hnot : s ∉ (proposedRows env.uuidv4 0 terms).map (fun v => v.2) := by
        rw [hsnd]; exact hs
      rw [hother s hnot]
      simp [hr, hs]
  · intro s r1 hsn hr1
    by_cases hs : s ∈ terms.map escapeText
    · have hmem : s ∈ (proposedRows env.uuidv4 0 terms).map (fun v => v.2) := by
        rw [hsnd]; exact hs
      obtain ⟨v, hvm, hv2⟩ := List.mem_map.mp hmem
      have := hv v hvm
      rw [hv2, hr1] at this
      simp only [Option.some.injEq] at this
      rw [this]
      simp [affectedRow, hv2, hsn]
    · have hnot : s ∉ (proposedRows env.uuidv4 0 terms).map (fun v => v.2) := by
        rw [hsnd]; exact hs
      rw [hother s hnot, hsn] at hr1
      cases hr1
  · intro id hid
    rcases hidsub id hid with h1 | h1
    · exact Or.inl h1
    · rw [hfst] at h1; exact Or.inr h1

theorem runCalls_counted (calls : List (Env × List String)) :
    ∀ (table : List Row),
      (∀ c ∈ calls, c.1.reachable = true ∧ c.2 ≠ [] ∧ (c.2.map escapeText).Nodup ∧
        ∀ t ∈ c.2, findByTerm (escapeText t) table ≠ none
          ∨ c.1.fitsIndex (escapeText t) = true) →
      (generatedIds calls).Nodup →
      (∀ id ∈ generatedIds calls, id ∉ table.map (fun r => r.termId)) →
      (∀ s r, findByTerm s table = some r → r.documentFrequency + calls.length ≤ bigintMax) →
      (calls.length : Int) ≤ bigintMax →
      callsSucceed table calls ∧
      ∀ s r, findByTerm s table = some r →
        findByTerm s (runCalls table calls)
          = some { r with documentFrequency := r.documentFrequency + batchesWith s calls } := by
  induction calls with
  | nil =>
    intro table _ _ _ _ _
    refine ⟨trivial, ?_⟩
    intro s r hr
    simp [runCalls, batchesWith, hr]
  | cons c cs ih =>
    intro table hcalls hnd hfresh hmax hlen
    obtain ⟨hreach, hne, hdist, hfit⟩ := hcalls c (List.mem_cons_self _ _)
    simp only [generatedIds] at hnd hfresh
    rw [List.nodup_append] at hnd
    obtain ⟨hnd1, hnd2, hdisj⟩ := hnd
    simp only [List.length_cons, Nat.cast_add, Nat.cast_one] at hmax hlen
    have hmax1 : ∀ s r, findByTerm s table = some r → r.documentFrequency + 1 ≤ bigintMax := by
      intro s r hr
      have := hmax s r hr
      omega
    obtain ⟨hok, hsome, hzero, hidsub⟩ := bulkUpsert_runs c.1 table c.2 hreach hne hdist hfit
      hnd1 (fun id hid => hfresh id (List.mem_append_left _ hid)) hmax1
    have hkeep : ∀ s, findByTerm s table ≠ none →
        findByTerm s (bulkUpsert c.1 table c.2).2 ≠ none := by
      intro s hs
      cases hf : findByTerm s table with
      | none => exact absurd hf hs
      | some r => rw [hsome s r hf]; simp
    obtain ⟨isucc, icount⟩ := ih (bulkUpsert c.1 table c.2).2
      (by
        intro d hd
        obtain ⟨h1, h2, h3, h4⟩ := hcalls d (List.mem_cons_of_mem _ hd)
        refine ⟨h1, h2, h3, fun t ht => ?_⟩
        rcases h4 t ht with h5 | h5
        · exact Or.inl (hkeep _ h5)
        · exact Or.inr h5)
      hnd2
      (by
        intro id hid hmem
        rcases hidsub id hmem with h1 | h1
        · exact hfresh id (List.mem_append_right _ hid) h1
        · exact hdisj h1 hid)
      (by
        intro s r1 hr1
        cases hf : findByTerm s table with
        | none =>
          have := hzero s r1 hf hr1
          omega
        | some r =>
          rw [hsome s r hf] at hr1
          simp only [Option.some.injEq] at hr1
          subst hr1
          have := hmax s r hf
          simp only
          split_ifs <;> omega)
      (by omega)
    refine ⟨⟨hok, isucc⟩, ?_⟩
    intro s r hr
    rw [runCalls, icount s _ (hsome s r hr)]
    simp only [batchesWith, List.countP_cons, decide_eq_true_eq, Option.some.injEq]
    split_ifs <;> simp
    ring_nf

/-- C1 (as stated, refuted): with `"cat"` stored at `documentFrequency` 5,
resubmitting `"cat"` twice in one batch is rejected by the store and the
counter stays 5 instead of becoming 7. -/
theorem resubmit_twice_in_one_batch_rejected :
    bulkUpsert sampleEnv catTable ["cat", "cat"] = (.error .cardinalityViolation, catTable) ∧
    (bulkUpsert sampleEnv catTable ["cat", "cat"]).2.filter (fun r => r.term = "cat")
      ≠ [⟨"886313e1-3b8a-4372-9b90-0c9aee199e5d", "cat", 1400000000, 1400000000, 5 + 2⟩] := by
  have h : bulkUpsert sampleEnv catTable ["cat", "cat"]
      = (.error .cardinalityViolation, catTable) := by
    rw [bulkUpsert_eq]
    decide
  rw [h]
  exact ⟨rfl, by decide⟩

/-- C1 (amended): take a table with unique texts and a sequence of calls, each
with the store reachable and a non-empty batch whose stored texts
(`escapeText`: the term itself unless it holds a NUL character) differ from
each other and are in the table or accepted by the unique index; let the
identifiers generated during the calls be different from each other and from
the stored ones, and let no counter leave the `BIGINT` range when raised once
per call.  Then every call succeeds, and afterwards every row `r` of the table
is still the one row with its text, with the same `termId`, `term` and
timestamps, and its `documentFrequency` is that of `r` plus the number of
batches that hold its text. -/
theorem resubmitted_terms_counted (table : List Row) (calls : List (Env × List String))
    (hwf : WellFormed table)
    (hcalls : ∀ c ∈ calls, c.1.reachable = true ∧ c.2 ≠ [] ∧ (c.2.map escapeText).Nodup ∧
      ∀ t ∈ c.2, escapeText t ∈ table.map (fun r => r.term)
        ∨ c.1.fitsIndex (escapeText t) = true)
    (hids : (generatedIds calls).Nodup)
    (hfresh : ∀ id ∈ generatedIds calls, id ∉ table.map (fun r => r.termId))
    (hmax : ∀ r ∈ table, r.documentFrequency + calls.length ≤ bigintMax)
    (hlen : (calls.length : Int) ≤ bigintMax) :
    callsSucceed table calls ∧
    ∀ r ∈ table, (runCalls table calls).filter (fun x => x.term = r.term)
      = [{ r with documentFrequency := r.documentFrequency + batchesWith r.term calls }] := by
  obtain ⟨hsucc, hcount⟩ := runCalls_counted calls table
    (by
      intro c hc
      obtain ⟨h1, h2, h3, h4⟩ := hcalls c hc
      refine ⟨h1, h2, h3, fun t ht => ?_⟩
      rcases h4 t ht with h5 | h5
      · exact Or.inl (fun hnone => findByTerm_eq_none.mp hnone h5)
      · exact Or.inr h5)
    hids hfresh
    (fun s r hr => hmax r (findByTerm_mem hr)) hlen
  refine ⟨hsucc, ?_⟩
  intro r hr
  rw [filter_term_eq (runCalls_wellFormed calls table hwf).1,
    hcount r.term r (findByTerm_of_mem hwf.1 hr)]
  rfl

/-- C1 scenario: `"cat"` stored with `documentFrequency` 5, input `["cat"]`,
and a second batch `["dog", "cat"]` after it: both calls succeed, the row of
`"cat"` keeps its identifier, and its `documentFrequency` is 6 after the first
call and 7 after the second. -/
theorem resubmitted_terms_counted_witness :
    (callsSucceed catTable [(sampleEnv, ["cat"])] ∧
      (runCalls catTable [(sampleEnv, ["cat"])]).filter (fun x => x.term = "cat")
        = [⟨"886313e1-3b8a-4372-9b90-0c9aee199e5d", "cat", 1400000000, 1400000000, 6⟩]) ∧
    (callsSucceed catTable [(sampleEnv, ["cat"]), (laterEnv, ["dog", "cat"])] ∧
      (runCalls catTable [(sampleEnv, ["cat"]), (laterEnv, ["dog", "cat"])]).filter
          (fun x => x.term = "cat")
        = [⟨"886313e1-3b8a-4372-9b90-0c9aee199e5d", "cat", 1400000000, 1400000000, 7⟩]) := by
  have h1 := resubmitted_terms_counted catTable [(sampleEnv, ["cat"])]
    (by decide) (by decide) (by decide) (by decide) (by decide) (by decide)
  have h2 := resubmitted_terms_counted catTable
    [(sampleEnv, ["cat"]), (laterEnv, ["dog", "cat"])]
    (by decide) (by decide) (by decide) (by decide) (by decide) (by decide)
  exact ⟨⟨h1.1, h1.2 ⟨"886313e1-3b8a-4372-9b90-0c9aee199e5d", "cat", 1400000000, 1400000000, 5⟩
      (by decide)⟩,
    ⟨h2.1, h2.2 ⟨"886313e1-3b8a-4372-9b90-0c9aee199e5d", "cat", 1400000000, 1400000000, 5⟩
      (by decide)⟩⟩

/-! ## Batches of terms not yet stored -/

theorem unseen_batch_runs (env : Env) (table : List Row) (terms : List String)
    (hdist : (terms.map escapeText).Nodup)
    (hnew : ∀ t ∈ terms, ∀ r ∈ table, r.term ≠ escapeText t)
    (hfit : ∀ t ∈ terms, env.fitsIndex (escapeText t) = true)
    (hids : ((List.range terms.length).map env.uuidv4).Nodup)
    (hfresh : ∀ i < terms.length, ∀ r ∈ table, r.termId ≠ env.uuidv4 i) :
    ∃ w, insertAll env (upsertPlan terms.length) ⟨table, [], []⟩
      (proposedRows env.uuidv4 0 terms) = .ok w := by
  apply insertAll_runs
  · rw [proposedRows_map_snd]; exact hdist
  · rw [proposedRows_map_fst, ← List.range_eq_range']; exact hids
  · intro v _; simp
  · intro v hv
    right
    have hv2 : v.2 ∈ terms.map escapeText := by
      rw [← proposedRows_map_snd env.uuidv4 terms 0]
      exact List.mem_map_of_mem (fun v => v.2) hv
    obtain ⟨t, ht, hte⟩ := List.mem_map.mp hv2
    refine ⟨?_, ?_, ?_⟩
    · rw [findByTerm_eq_none]
      intro hmem
      obtain ⟨r, hr, hrt⟩ := List.mem_map.mp hmem
      exact hnew t ht r hr (by rw [hte]; exact hrt)
    · rw [← hte]; exact hfit t ht
    · intro hmem
      obtain ⟨r, hr, hrt⟩ := List.mem_map.mp hmem
      have hv1 : v.1 ∈ (List.range terms.length).map env.uuidv4 := by
        rw [List.range_eq_range', ← proposedRows_map_fst env.uuidv4 terms 0]
        exact List.mem_map_of_mem (fun v => v.1) hv
      obtain ⟨i, hi, hiv⟩ := List.mem_map.mp hv1
      exact hfresh i (List.mem_range.mp hi) r hr (by rw [hrt, hiv])

/-- C2 (as stated, refuted): the two terms `a NUL b` and `a\0b` are different
and neither is stored, yet the batch is rejected and no row exists for either
of them: the store receives the same text `a\0b` for both. -/
theorem nul_spelling_collides :
    ("a\x00b" : String) ≠ "a\\0b" ∧
    bulkUpsert sampleEnv [] ["a\x00b", "a\\0b"] = (.error .cardinalityViolation, []) := by
  refine ⟨by decide, ?_⟩
  rw [bulkUpsert_eq]
  decide

/-- C2 (amended): on a table with unique texts and identifiers, with the store
reachable and the generated identifiers new (different from each other and
from the stored ones), take a batch of terms whose stored texts (`escapeText`:
the term itself unless it holds a NUL character) differ from each other, are
not in the table and are accepted by the unique index.  If the batch is not
empty the call succeeds, and afterwards the stored text of every term of the
batch is held by exactly one row, with `documentFrequency` 0 and the
identifier generated for that entry. -/
theorem unseen_batch_inserted (env : Env) (table : List Row) (terms : List String)
    (hwf : WellFormed table) (hreach : env.reachable = true)
    (hdist : (terms.map escapeText).Nodup)
    (hnew : ∀ t ∈ terms, ∀ r ∈ table, r.term ≠ escapeText t)
    (hfit : ∀ t ∈ terms, env.fitsIndex (escapeText t) = true)
    (hids : ((List.range terms.length).map env.uuidv4).Nodup)
    (hfresh : ∀ i < terms.length, ∀ r ∈ table, r.termId ≠ env.uuidv4 i) :
    (terms ≠ [] → (bulkUpsert env table terms).1.isOk = true) ∧
    ∀ (i : Nat) (h : i < terms.length),
      (bulkUpsert env table terms).2.filter (fun r => r.term = escapeText terms[i])
        = [⟨env.uuidv4 i, escapeText terms[i], env.now, env.now, 0⟩] := by
  obtain ⟨w, hrun⟩ := unseen_batch_runs env table terms hdist hnew hfit hids hfresh
  have hcall : terms ≠ [] → bulkUpsert env table terms = (.ok w.returned, w.table) := by
    intro hne
    rw [bulkUpsert_eq, hrun]
    simp [hreach, hne]
  refine ⟨fun hne => by rw [hcall hne]; rfl, ?_⟩
  intro i h
  have hne : terms ≠ [] := by
    intro h0; rw [h0] at h; simp at h
  have hwf2 := bulkUpsert_wellFormed env table terms hwf
  rw [filter_term_eq hwf2.1, hcall hne]
  obtain ⟨_, _, _, hv, _, _⟩ := insertAll_ok _ hrun (tracked_start table)
  have hrow := hv _ (proposedRows_mem_index env.uuidv4 terms i h)
  simp only at hrow ⊢
  rw [hrow]
  have hnone : findByTerm (escapeText terms[i]) table = none := by
    rw [findByTerm_eq_none]
    intro hmem
    obtain ⟨r, hr, hrt⟩ := List.mem_map.mp hmem
    exact hnew _ (List.getElem_mem h) r hr hrt
  simp [affectedRow, hnone]

/-- C2 amended, at a concrete input: `["dog", "emu"]` on storage that holds
`"cat"`. -/
theorem unseen_batch_inserted_witness :
    (bulkUpsert sampleEnv catTable ["dog", "emu"]).1.isOk = true ∧
    (bulkUpsert sampleEnv catTable ["dog", "emu"]).2.filter (fun r => r.term = "emu")
      = [⟨"6fa459ea-ee8a-4ca4-894e-db77e160355e", "emu", 1500000000, 1500000000, 0⟩] := by
  have h := unseen_batch_inserted sampleEnv catTable ["dog", "emu"]
    (by decide) rfl (by decide) (by decide) (by decide) (by decide) (by decide)
  exact ⟨h.1 (by decide), h.2 1 (by decide)⟩

/-! ## Batches that repeat a term -/

theorem repeated_term_rejected (env : Env) (table : List Row) (terms : List String)
    (hdup : ¬ (terms.map escapeText).Nodup) :
    ∃ e, bulkUpsert env table terms = (.error e, table) := by
  rcases bulkUpsert_cases env table terms with h | ⟨w, _, _, hw, _⟩
  · exact h
  · have := (insertAll_ok _ hw (tracked_start table)).1
    rw [proposedRows_map_snd] at this
    exact absurd this hdup

/-- C3 (as stated, refuted): `["cat", "dog", "cat"]` on empty storage is
rejected as a whole; there is no result entry and no row, so no `"cat"` row
with `documentFrequency` 1. -/
theorem cat_dog_cat_rejected :
    bulkUpsert sampleEnv [] ["cat", "dog", "cat"] = (.error .cardinalityViolation, []) := by
  rw [bulkUpsert_eq]
  decide

/-- C3 (amended): on empty storage, with the store reachable and the generated
identifiers pairwise different, a non-empty batch of terms whose stored texts
(`escapeText`) differ from each other and are accepted by the unique index
succeeds, returns one entry per term in input order with the identifier
generated for it and its stored text, and leaves one row per term with
`documentFrequency` 0; a batch in which two entries have the same stored text
(a term that occurs more than once, in particular) is rejected and storage
stays empty. -/
theorem batch_on_empty_storage (env : Env) (terms : List String)
    (hreach : env.reachable = true)
    (hids : ((List.range terms.length).map env.uuidv4).Nodup) :
    (terms ≠ [] → (terms.map escapeText).Nodup →
      (∀ t ∈ terms, env.fitsIndex (escapeText t) = true) →
      (bulkUpsert env [] terms).1
        = .ok ((List.range terms.length).map (fun i =>
            [("termId", Value.text (env.uuidv4 i)),
             ("term", Value.text (escapeText (terms.getD i "")))])) ∧
      ∀ (i : Nat) (h : i < terms.length),
        (bulkUpsert env [] terms).2.filter (fun r => r.term = escapeText terms[i])
          = [⟨env.uuidv4 i, escapeText terms[i], env.now, env.now, 0⟩]) ∧
    (¬ (terms.map escapeText).Nodup → ∃ e, bulkUpsert env [] terms = (.error e, [])) := by
  refine ⟨fun hne hdist hfit => ?_, repeated_term_rejected env [] terms⟩
  obtain ⟨w, hrun⟩ := unseen_batch_runs env [] terms hdist (by simp) hfit hids (by simp)
  have hcall : bulkUpsert env [] terms = (.ok w.returned, w.table) := by
    rw [bulkUpsert_eq, hrun]
    simp [hreach, hne]
  obtain ⟨_, _, _, hv, hret, hwf⟩ := insertAll_ok _ hrun (tracked_start [])
  have hwf2 : WellFormed w.table := hwf ⟨List.nodup_nil, List.nodup_nil⟩
  rw [hcall]
  refine ⟨?_, ?_⟩
  · simp only [hret, List.nil_append, Except.ok.injEq]
    apply List.ext_getElem?
    intro i
    rw [List.getElem?_map, List.getElem?_map, proposedRows_getElem?]
    by_cases hi : i < terms.length
    · rw [List.getElem?_eq_getElem hi, List.getElem?_range hi]
      simp [affectedRow, findByTerm, entryOf, upsertPlan, Row.column, List.getD,
        List.getElem?_eq_getElem hi]
    · rw [List.getElem?_eq_none (by omega), List.getElem?_eq_none (by simpa using hi)]
      rfl
  · intro i h
    have hrow := hv _ (proposedRows_mem_index env.uuidv4 terms i h)
    simp only at hrow ⊢
    rw [filter_term_eq hwf2.1, hrow]
    simp [affectedRow, findByTerm]

/-- C3 amended, at `["cat", "dog"]` on empty storage: two entries with the two
generated identifiers. -/
theorem batch_on_empty_storage_witness :
    (bulkUpsert sampleEnv [] ["cat", "dog"]).1
      = .ok [[("termId", Value.text "1b4e28ba-2fa1-41d2-883f-0016d3cca427"),
              ("term", Value.text "cat")],
             [("termId", Value.text "6fa459ea-ee8a-4ca4-894e-db77e160355e"),
              ("term", Value.text "dog")]] :=
  ((batch_on_empty_storage sampleEnv ["cat", "dog"] rfl (by decide)).1
    (by decide) (by decide) (by decide)).1

/-! ## The resolved array -/

/-- C4 (as stated, refuted): for the one-term batch `[a NUL b]` on empty
storage the call succeeds and the text of the returned entry is `a\0b`, not
the input term. -/
theorem nul_term_returned_rewritten :
    (bulkUpsert sampleEnv [] ["a\x00b"]).1
      = .ok [[("termId", Value.text "1b4e28ba-2fa1-41d2-883f-0016d3cca427"),
              ("term", Value.text "a\\0b")]] ∧
    ("a\\0b" : String) ≠ "a\x00b" := by
  refine ⟨?_, by decide⟩
  rw [bulkUpsert_eq]
  decide

/-- C4 (amended): a successful `bulkUpsert` on a table with unique texts
returns as many entries as the batch has terms, in input order.  Entry `i`
holds the columns `termId` and `term` of the one row that holds the stored
text of `terms[i]` (`escapeText`: the term itself unless it holds a NUL
character) after the call; its `termId` is the identifier of the row that
held this text before the call when there was one, and the identifier
generated in iteration `i` otherwise.  The stored texts of the terms of a
successful call differ from each other, so no entry repeats a row. -/
theorem result_follows_input (env : Env) (table : List Row) (terms : List String)
    (res : List TermEntry) (hwf : WellFormed table)
    (hok : (bulkUpsert env table terms).1 = .ok res) :
    res.length = terms.length ∧ (terms.map escapeText).Nodup ∧
    ∀ (i : Nat) (h : i < terms.length), ∃ row : Row,
      (bulkUpsert env table terms).2.filter (fun r => r.term = escapeText terms[i]) = [row] ∧
      res[i]? = some [("termId", Value.text row.termId),
                      ("term", Value.text (escapeText terms[i]))] ∧
      row.termId = (match findByTerm (escapeText terms[i]) table with
        | some r => r.termId
        | none => env.uuidv4 i) := by
  have hwf2 := bulkUpsert_wellFormed env table terms hwf
  rcases bulkUpsert_cases env table terms with ⟨e, he⟩ | ⟨w, _, _, hw, he⟩
  · rw [he] at hok; cases hok
  · rw [he] at hok hwf2 ⊢
    simp only [Except.ok.injEq] at hok
    obtain ⟨hnd, _, _, hv, hret, _⟩ := insertAll_ok _ hw (tracked_start table)
    simp only [List.nil_append] at hret
    subst hok
    rw [proposedRows_map_snd] at hnd
    refine ⟨by rw [hret, List.length_map, proposedRows_length], hnd, ?_⟩
    intro i h
    have hrow := hv _ (proposedRows_mem_index env.uuidv4 terms i h)
    simp only at hrow
    have hterm : (affectedRow env.now (upsertPlan terms.length).increment table
        (env.uuidv4 i, escapeText terms[i])).term = escapeText terms[i] := by
      have := findByTerm_term hrow
      exact this
    refine ⟨affectedRow env.now (upsertPlan terms.length).increment table
      (env.uuidv4 i, escapeText terms[i]), ?_, ?_, ?_⟩
    · simp only at hwf2 ⊢
      rw [filter_term_eq hwf2.1, hrow]
      rfl
    · rw [hret, List.getElem?_map, proposedRows_getElem?, List.getElem?_eq_getElem h]
      simp only [Option.map_some', Nat.zero_add, Option.some.injEq]
      simp only [entryOf, upsertPlan, Row.column] at hterm ⊢
      simp [hterm]
    · simp only [affectedRow]
      cases findByTerm (escapeText terms[i]) table <;> rfl

/-- C4 amended, at `["cat", "dog"]` on storage that holds `"cat"`: the first
entry carries the stored identifier of `"cat"`. -/
theorem result_follows_input_witness :
    ∃ row : Row,
      (bulkUpsert sampleEnv catTable ["cat", "dog"]).2.filter
        (fun r => r.term = escapeText "cat") = [row] ∧
      ([[("termId", Value.text "886313e1-3b8a-4372-9b90-0c9aee199e5d"),
         ("term", Value.text "cat")],
        [("termId", Value.text "6fa459ea-ee8a-4ca4-894e-db77e160355e"),
         ("term", Value.text "dog")]] : List TermEntry)[0]?
        = some [("termId", Value.text row.termId), ("term", Value.text (escapeText "cat"))] ∧
      row.termId = (match findByTerm (escapeText "cat") catTable with
        | some r => r.termId
        | none => sampleEnv.uuidv4 0) :=
  (result_follows_input sampleEnv catTable ["cat", "dog"]
    [[("termId", Value.text "886313e1-3b8a-4372-9b90-0c9aee199e5d"),
      ("term", Value.text "cat")],
     [("termId", Value.text "6fa459ea-ee8a-4ca4-894e-db77e160355e"),
      ("term", Value.text "dog")]]
    (by decide) (by rw [bulkUpsert_eq]; decide)).2.2 0 (by decide)

/-! ## The empty batch -/

/-- C5 (what the code does): for the empty batch the loop adds no row, the
text is the header directly followed by `ON CONFLICT`, and the call is
rejected: with a syntax error when the store is reachable, with the connection
error otherwise.  The table is left as it was. -/
theorem empty_batch_rejected (env : Env) (table : List Row) :
    (buildStatement env.uuidv4 []).1 = insertHeader ++ conflictTail ∧
    bulkUpsert env table []
      = (.error (if env.reachable = true then .syntaxError else .connectionRefused), table) := by
  refine ⟨by simp [buildStatement_eq, specValueRows], ?_⟩
  rw [bulkUpsert_eq]
  cases env.reachable <;> simp

/-! ## Uniqueness as an invariant -/

/-- C6: in every table reached from the empty table by a sequence of
`bulkUpsert` calls (any surroundings, any batches, succeeding or not) no two
rows carry the same `term` and no two rows carry the same `termId`. -/
theorem reachable_tables_unique (calls : List (Env × List String)) :
    ((runCalls [] calls).map (fun r => r.term)).Nodup ∧
    ((runCalls [] calls).map (fun r => r.termId)).Nodup :=
  runCalls_wellFormed calls [] ⟨List.nodup_nil, List.nodup_nil⟩

/-! ## Shape of the statement -/

theorem specValueRows_count (n : Nat) : (specValueRows n).data.count '?' = 2 * n := by
  induction n using specValueRows.induct with
  | case1 => rfl
  | case2 => decide
  | case3 m ih =>
    rw [specValueRows, String.data_append, List.count_append, ih]
    have : ("   (?, ?),\n" : String).data.count '?' = 2 := by decide
    omega

theorem specReplacements_length (uuidv4 : Nat → String) (terms : List String) :
    ∀ k, (specReplacements uuidv4 k terms).length = 2 * terms.length := by
  induction terms with
  | nil => intro k; rfl
  | cons t ts ih =>
    intro k
    simp only [specReplacements, List.length_cons, ih]
    omega

theorem specReplacements_getElem? (uuidv4 : Nat → String) (terms : List String) :
    ∀ (k i : Nat) (h : i < terms.length),
      (specReplacements uuidv4 k terms)[2 * i]? = some (uuidv4 (k + i)) ∧
      (specReplacements uuidv4 k terms)[2 * i + 1]? = some terms[i] := by
  induction terms with
  | nil => intro k i h; simp at h
  | cons t ts ih =>
    intro k i h
    cases i with
    | zero => simp [specReplacements]
    | succ j =>
      simp only [List.length_cons, Nat.add_lt_add_iff_right] at h
      obtain ⟨h1, h2⟩ := ih (k + 1) j h
      have e1 : 2 * (j + 1) = 2 * j + 1 + 1 := by omega
      have e2 : k + (j + 1) = k + 1 + j := by omega
      refine ⟨?_, ?_⟩
      · rw [e1, e2, specReplacements, List.getElem?_cons_succ, List.getElem?_cons_succ, h1]
      · rw [e1, specReplacements, List.getElem?_cons_succ, List.getElem?_cons_succ, h2]
        simp

/-- C10: the text built for a batch of `n` terms is the fixed header, `n`
value rows `(?, ?)` of which all but the last end in a comma, and the fixed
`ON CONFLICT ... RETURNING` tail; the replacements are
`[id_0, terms[0], id_1, terms[1], ...]`.  So the text has `2 * n` placeholders,
as many as there are replacements, the two values of row `i` are the
identifier generated in iteration `i` and `terms[i]`, and the text is the
same for any two batches of the same length. -/
theorem statement_shape (uuidv4 : Nat → String) (terms : List String) :
    (buildStatement uuidv4 terms).1
      = insertHeader ++ specValueRows terms.length ++ conflictTail ∧
    (buildStatement uuidv4 terms).2 = specReplacements uuidv4 0 terms ∧
    placeholderCount (buildStatement uuidv4 terms).1 = 2 * terms.length ∧
    (buildStatement uuidv4 terms).2.length = 2 * terms.length ∧
    (∀ (i : Nat) (h : i < terms.length),
      (buildStatement uuidv4 terms).2[2 * i]? = some (uuidv4 i) ∧
      (buildStatement uuidv4 terms).2[2 * i + 1]? = some terms[i]) ∧
    (∀ (uuidv4' : Nat → String) (terms' : List String), terms'.length = terms.length →
      (buildStatement uuidv4' terms').1 = (buildStatement uuidv4 terms).1) := by
  have hh : insertHeader.data.count '?' = 0 := by decide
  have ht : conflictTail.data.count '?' = 0 := by decide
  refine ⟨by rw [buildStatement_eq], by rw [buildStatement_eq], ?_, ?_, ?_, ?_⟩
  · simp only [buildStatement_eq, placeholderCount, String.data_append, List.count_append,
      specValueRows_count, hh, ht]
    omega
  · rw [buildStatement_eq]
    exact specReplacements_length uuidv4 terms 0
  · intro i h
    rw [buildStatement_eq]
    have := specReplacements_getElem? uuidv4 terms 0 i h
    simpa using this
  · intro uuidv4' terms' hlen
    rw [buildStatement_eq, buildStatement_eq, hlen]

/-- C9 (what the code does): when option `class_model` is not given, the class
model is read from `legalModel.json` in the script directory, the file of the
legal model, although `storeModels` writes the class model to
`classModel.json`; a model whose file cannot be read or parsed is the empty
object. -/
theorem class_model_default_reads_legal_file {J : Type} (h : Host J)
    (o : CommandLineOptions) (legal : Option String) :
    (loadModels h { o with legal_model := legal, class_model := none }).classModel
      = readModel h (h.join h.dirname "legalModel.json") ∧
    (loadModels h { o with legal_model := none, class_model := none }).legalModel
      = readModel h (h.join h.dirname "legalModel.json") ∧
    (storeDestinations h h.dirname).2 = h.join h.dirname "classModel.json" ∧
    (∀ rawPath, h.readFileSync rawPath = none → readModel h rawPath = h.emptyObject) ∧
    (∀ rawPath modelString, h.readFileSync rawPath = some modelString →
      h.jsonParse modelString = none → readModel h rawPath = h.emptyObject) := by
  refine ⟨rfl, rfl, rfl, ?_, ?_⟩
  · intro rawPath hr
    simp [readModel, hr]
  · intro rawPath modelString hr hp
    simp [readModel, hr, hp]

/-- C9 at a concrete script directory: both model files exist with different
content and no option is given; the class model comes out as the content of
`legalModel.json`. -/
theorem class_model_default_sample :
    (loadModels sampleHost ⟨none, none, none, none, none, none, none⟩).classModel
      = "legal-model-content" ∧
    sampleHost.readFileSync (storeDestinations sampleHost sampleHost.dirname).2
      = some "class-model-content" := by
  decide


end Spider
